import Mathlib

/-!
Verification of the jtd-fuzz generation engine (src/lib.rs).

The development shallowly embeds the recursive generator `fuzz_with_root`
and its helpers.  Machine randomness is modelled by an explicit stream of
natural numbers: every call the Rust code makes into the `rand` crate
(`gen::<bool>()`, `gen::<u8>()`, `gen_range(..)`, `IteratorRandom::choose`
on an exact-size iterator) consumes exactly one element of the stream and
maps it into the requested range by a modulus, which is a faithful model of
an opaque uniform draw.  Rust `String`s are represented as lists of Unicode
code points (`Str`); `BTreeMap`s are represented as key-sorted association
lists maintained by `insertSorted`, matching the sorted iteration order of
the Rust container.  External library calls whose exact output text is
irrelevant to the engine (chrono's RFC 3339 rendering, the faker-rand
generators) are modelled as deterministic placeholder encodings of the
draws they consume, as noted on their definitions.
-/

namespace JtdFuzz

/-- A Rust `String`, as its list of Unicode code points (UTF-8 byte order
and code-point order agree, so lexicographic comparison is faithful). -/
abbrev Str := List Nat

/-- The opaque random source: a stream of raw draws.  An exhausted stream
keeps yielding 0 (all claims quantify over every stream, so this loses no
generality). -/
structure Rng where
  stream : List Nat
deriving DecidableEq

/-- Consume one raw draw. -/
def Rng.next : Rng → Nat × Rng
  | ⟨[]⟩ => (0, ⟨[]⟩)
  | ⟨n :: ns⟩ => (n, ⟨ns⟩)

/-- Model of `rng.gen::<bool>()`: one draw, reduced to a coin flip. -/
def genBool (r : Rng) : Bool × Rng :=
  let p := r.next
  (p.1 % 2 == 1, p.2)

/-- Model of `rng.gen_range(lo..hi)` (half-open): one draw into `[lo, hi)`. -/
def genRangeExcl (lo hi : Nat) (r : Rng) : Nat × Rng :=
  let p := r.next
  (lo + p.1 % (hi - lo), p.2)

/-- Model of `rng.gen_range(lo..=hi)` (inclusive): one draw into `[lo, hi]`. -/
def genRangeIncl (lo hi : Nat) (r : Rng) : Nat × Rng :=
  let p := r.next
  (lo + p.1 % (hi + 1 - lo), p.2)

/-- Model of an unsigned full-range draw (`rng.gen::<uN>()`). -/
def genUIntBits (w : Nat) (r : Rng) : Nat × Rng :=
  let p := r.next
  (p.1 % 2 ^ w, p.2)

/-- Model of a signed full-range draw (`rng.gen::<iN>()`), two's complement. -/
def genIntBits (w : Nat) (r : Rng) : Int × Rng :=
  let p := r.next
  let v := p.1 % 2 ^ w
  (if v < 2 ^ (w - 1) then (v : Int) else (v : Int) - 2 ^ w, p.2)

/-- `const MAX_SEQ_LENGTH: u8 = 8` from src/lib.rs. -/
def MAX_SEQ_LENGTH : Nat := 8

/-- The eleven primitive types of the `Type` form (jtd::Type). -/
inductive Ty where
  | boolean | float32 | float64 | int8 | uint8 | int16 | uint16 | int32 | uint32
  | string | timestamp
deriving DecidableEq

/-- A serde_json `Value`.  Floats are carried as the raw mantissa draw that
produced them (their numeric text never feeds back into the engine). -/
inductive Value where
  | null
  | bool (b : Bool)
  | int (n : Int)
  | float32 (m : Nat)
  | float64 (m : Nat)
  | str (s : Str)
  | arr (elems : List Value)
  | obj (members : List (Str × Value))

/-- A jtd `Schema` node.  Association lists for `properties`,
`optionalProperties` and discriminator `mapping` stand for the Rust
`BTreeMap`s in iteration order; `metadata` is reduced to its only consulted
entry, the `fuzzHint` string.  Definitions live only on the root and are
passed to the generator separately (only `root.definitions()` is ever
read by the code). -/
inductive Schema where
  | empty
  | ref (nullable : Bool) (name : Str)
  | type (hint : Option String) (nullable : Bool) (ty : Ty)
  | enum (nullable : Bool) (values : List Str)
  | elements (nullable : Bool) (elem : Schema)
  | properties (nullable : Bool) (props : List (Str × Schema))
      (optProps : List (Str × Schema)) (additional : Bool)
  | values (nullable : Bool) (val : Schema)
  | discriminator (nullable : Bool) (discr : Str) (mapping : List (Str × Schema))

/-- The root schema's named definitions (`root.definitions()`). -/
abbrev Defs := List (Str × Schema)

/-- Strict lexicographic order on strings (Rust `String` `Ord`). -/
def strLt : Str → Str → Bool
  | [], [] => false
  | [], _ :: _ => true
  | _ :: _, [] => false
  | a :: as, b :: bs => if a < b then true else if b < a then false else strLt as bs

/-- Reflexive lexicographic order on strings. -/
def strLe : Str → Str → Bool
  | [], _ => true
  | _ :: _, [] => false
  | a :: as, b :: bs => if a < b then true else if b < a then false else strLe as bs

/-- One step of insertion sort by `strLe`. -/
def insortStr (k : Str) : List Str → List Str
  | [] => [k]
  | x :: xs => if strLe k x then k :: x :: xs else x :: insortStr k xs

/-- Sorting of a key vector (`required_keys.sort()` / `optional_keys.sort()`). -/
def sortStrs : List Str → List Str
  | [] => []
  | x :: xs => insortStr x (sortStrs xs)

/-- The keys of an association list, in representation order. -/
def keysOf {α : Type} (ps : List (Str × α)) : List Str := ps.map Prod.fst

/-- Key lookup in an association list (`map[&k]` / `Map::get`). -/
def lookupA {α : Type} (k : Str) : List (Str × α) → Option α
  | [] => none
  | p :: rest => if k = p.1 then some p.2 else lookupA k rest

/-- `BTreeMap::insert` on a key-sorted association list: insert in order,
replacing the value of an already-present key. -/
def insertSorted {α : Type} (k : Str) (v : α) : List (Str × α) → List (Str × α)
  | [] => [(k, v)]
  | p :: rest =>
    if strLt k p.1 then (k, v) :: p :: rest
    else if k = p.1 then (k, v) :: rest
    else p :: insertSorted k v rest

/-- ASCII case folding of one code point.  Rust's `str::to_lowercase` does
full Unicode folding, but the code's own comment notes only ASCII matters
here ("Since we'll only generate ASCII properties here, we don't need to
worry about implementing proper Unicode folding"). -/
def lowerChar (c : Nat) : Nat := if 65 ≤ c ∧ c ≤ 90 then c + 32 else c

/-- `s.to_lowercase()` restricted to ASCII folding (see `lowerChar`). -/
def toLower (s : Str) : Str := s.map lowerChar

/-- The character loop of `fuzz_string`: `len` draws from
`gen_range(32u8..=127u8)`, concatenated in draw order. -/
def fuzzStringChars : Nat → Rng → Str × Rng
  | 0, r => ([], r)
  | n + 1, r =>
    let c := genRangeIncl 32 127 r
    let rest := fuzzStringChars n c.2
    (c.1 :: rest.1, rest.2)

/-- `fuzz_string` from src/lib.rs: draw a length in `0..=MAX_SEQ_LENGTH`,
then that many characters from `gen_range(32u8..=127u8)`. -/
def fuzzString (r : Rng) : Str × Rng :=
  let len := genRangeIncl 0 MAX_SEQ_LENGTH r
  fuzzStringChars len.1 len.2

/-- The recognized `fuzzHint` metadata values (the match arms of the
`Type::String` case of `fuzz_with_root`). -/
def recognizedHints : List String :=
  ["en_us/addresses/address", "en_us/addresses/city_name",
   "en_us/addresses/division", "en_us/addresses/division_abbreviation",
   "en_us/addresses/postal_code", "en_us/addresses/secondary_address",
   "en_us/addresses/street_address", "en_us/addresses/street_name",
   "en_us/company/company_name", "en_us/company/slogan",
   "en_us/internet/domain", "en_us/internet/email", "en_us/internet/username",
   "en_us/names/first_name", "en_us/names/full_name", "en_us/names/last_name",
   "en_us/names/name_prefix", "en_us/names/name_suffix",
   "en_us/phones/phone_number",
   "fr_fr/addresses/address", "fr_fr/addresses/city_name",
   "fr_fr/addresses/division", "fr_fr/addresses/postal_code",
   "fr_fr/addresses/secondary_address", "fr_fr/addresses/street_address",
   "fr_fr/addresses/street_name", "fr_fr/company/company_name",
   "fr_fr/internet/domain", "fr_fr/internet/email", "fr_fr/internet/username",
   "fr_fr/names/first_name", "fr_fr/names/full_name", "fr_fr/names/last_name",
   "fr_fr/names/name_prefix", "fr_fr/phones/phone_number",
   "lorem/word", "lorem/sentence", "lorem/paragraph", "lorem/paragraphs"]

/-- Model of the external faker-rand generators (`rng.gen::<Faker>()`): one
draw mapped through a deterministic encoding of the hint and the draw.  The
exact text is external-library behavior; only determinism and draw count
are visible to the engine. -/
def fakerStr (h : String) (n : Nat) : Str := (h.toList.map Char.toNat) ++ [n % 256]

/-- Decimal digits of a natural number, as code points. -/
def natDigits (n : Nat) : Str := (Nat.toDigits 10 n).map Char.toNat

/-- Decimal rendering of an integer, as code points. -/
def intDigits (i : Int) : Str :=
  if i < 0 then 45 :: natDigits i.natAbs else natDigits i.natAbs

/-- Model of chrono's
`FixedOffset::east(off).timestamp(secs, 0).to_rfc3339()`: an abstract
deterministic rendering of the (offset, seconds) pair drawn by the engine.
The concrete RFC 3339 text is external-library behavior. -/
def rfc3339Str (off secs : Int) : Str := intDigits secs ++ [43] ++ intDigits off

/-- The timestamp offset draw `rng.gen_range(-max_offset..=max_offset)`
with `max_offset = 14 * 60 * 60 = 50400`: one draw into that window. -/
def genOffset (r : Rng) : Int × Rng :=
  let p := r.next
  (((p.1 % 100801 : Nat) : Int) - 50400, p.2)

/-- Model of `*nullable && rng.gen()` with Rust's short-circuit `&&`: a
non-nullable node draws nothing. -/
def nullFlip (nullable : Bool) (r : Rng) : Bool × Rng :=
  if nullable then genBool r else (false, r)

/-- The `(0..len).map(|_| fuzz_with_root(root, rng, elements)).collect()`
loop of the `Elements` arm; `F` is the child generation call.  `none`
propagates fuel exhaustion / panic from a child. -/
def elemsLoop (F : Rng → Option (Value × Rng)) : Nat → Rng → Option (List Value × Rng)
  | 0, rng => some ([], rng)
  | n + 1, rng =>
    match F rng with
    | none => none
    | some (v, rng) =>
      match elemsLoop F n rng with
      | none => none
      | some (vs, rng) => some (v :: vs, rng)

/-- The required-member loop of the `Properties` arm: for each key in
order, generate from `properties[&k]` and insert into `members`. -/
def requiredLoop (F : Schema → Rng → Option (Value × Rng))
    (ps : List (Str × Schema)) :
    List Str → Rng → List (Str × Value) → Option (List (Str × Value) × Rng)
  | [], rng, members => some (members, rng)
  | k :: ks, rng, members =>
    match lookupA k ps with
    | none => none
    | some sub =>
      match F sub rng with
      | none => none
      | some (v, rng) => requiredLoop F ps ks rng (insertSorted k v members)

/-- The optional-member loop of the `Properties` arm: for each key in
order, flip a coin (`if rng.gen() { continue; }`), and on inclusion
generate from `optional_properties[&k]` and insert. -/
def optionalLoop (F : Schema → Rng → Option (Value × Rng))
    (ps : List (Str × Schema)) :
    List Str → Rng → List (Str × Value) → Option (List (Str × Value) × Rng)
  | [], rng, members => some (members, rng)
  | k :: ks, rng, members =>
    let c := genBool rng
    if c.1 then optionalLoop F ps ks c.2 members
    else
      match lookupA k ps with
      | none => none
      | some sub =>
        match F sub c.2 with
        | none => none
        | some (v, rng) => optionalLoop F ps ks rng (insertSorted k v members)

/-- The same optional-member loop, projected to the list of keys whose
coin flip selected inclusion (the loop's draws and threading are
identical; only the collected result differs). -/
def selectedOptionals (F : Schema → Rng → Option (Value × Rng))
    (ps : List (Str × Schema)) :
    List Str → Rng → Option (List Str × Rng)
  | [], rng => some ([], rng)
  | k :: ks, rng =>
    let c := genBool rng
    if c.1 then selectedOptionals F ps ks c.2
    else
      match lookupA k ps with
      | none => none
      | some sub =>
        match F sub c.2 with
        | none => none
        | some (_, rng) =>
          match selectedOptionals F ps ks rng with
          | none => none
          | some (sel, rng) => some (k :: sel, rng)

/-- The additional-properties loop of the `Properties` arm: draw a key with
`fuzz_string`; if its case-folded form is in the precomputed folded set of
fixed member names, skip it (consuming no further randomness), otherwise
generate an `Empty`-schema value (`F`) and insert. -/
def additionalLoop (F : Rng → Option (Value × Rng)) (lowered : List Str) :
    Nat → Rng → List (Str × Value) → Option (List (Str × Value) × Rng)
  | 0, rng, members => some (members, rng)
  | n + 1, rng, members =>
    let key := fuzzString rng
    if toLower key.1 ∈ lowered then additionalLoop F lowered n key.2 members
    else
      match F key.2 with
      | none => none
      | some (v, rng) => additionalLoop F lowered n rng (insertSorted key.1 v members)

/-- The `(0..len).map(|_| (fuzz_string(rng), fuzz_with_root(..))).collect()`
loop of the `Values` arm: key first, then child value; collection into the
key-unique map collapses key collisions (later insertion wins). -/
def valuesLoop (F : Rng → Option (Value × Rng)) :
    Nat → Rng → List (Str × Value) → Option (List (Str × Value) × Rng)
  | 0, rng, members => some (members, rng)
  | n + 1, rng, members =>
    let key := fuzzString rng
    match F key.2 with
    | none => none
    | some (v, rng) => valuesLoop F n rng (insertSorted key.1 v members)

/-- `fuzz_with_root(root, rng, schema)` from src/lib.rs.  `defs` is the
root schema's definitions (the only part of `root` the code reads);
`isRoot` is the result of the pointer-identity test
`root as *const _ == schema as *const _`, which in the recursion holds
exactly at the entry call of a `fuzz` invocation.  `fuel` bounds the
recursion depth; `none` models nontermination-cutoff or a panic
(dangling ref / empty enum / empty discriminator mapping /
non-object discriminator branch — the `unwrap`s of the source).  The
numbered if-chain of the `Empty` arm mirrors the source's `match val`. -/
def fuzzWithRoot (fuel : Nat) (defs : Defs) (rng : Rng) (node : Schema)
    (isRoot : Bool) : Option (Value × Rng) :=
  match fuel with
  | 0 => none
  | fuel + 1 =>
    match node with
    | .empty =>
      let d := genRangeExcl 0 (if isRoot then 7 else 5) rng
      if d.1 = 0 then some (.null, d.2)
      else if d.1 = 1 then
        let b := genBool d.2
        some (.bool b.1, b.2)
      else if d.1 = 2 then
        let n := genUIntBits 8 d.2
        some (.int (n.1 : Int), n.2)
      else if d.1 = 3 then
        let m := genUIntBits 53 d.2
        some (.float64 m.1, m.2)
      else if d.1 = 4 then
        let s := fuzzString d.2
        some (.str s.1, s.2)
      else if d.1 = 5 then
        fuzzWithRoot fuel [] d.2 (.elements false .empty) true
      else if d.1 = 6 then
        fuzzWithRoot fuel [] d.2 (.values false .empty) true
      else none
    | .ref nullable name =>
      let f := nullFlip nullable rng
      if f.1 then some (.null, f.2)
      else
        match lookupA name defs with
        | none => none
        | some target => fuzzWithRoot fuel defs f.2 target false
    | .type hint nullable ty =>
      let f := nullFlip nullable rng
      if f.1 then some (.null, f.2)
      else
        match ty with
        | .boolean =>
          let b := genBool f.2
          some (.bool b.1, b.2)
        | .float32 =>
          let m := genUIntBits 24 f.2
          some (.float32 m.1, m.2)
        | .float64 =>
          let m := genUIntBits 53 f.2
          some (.float64 m.1, m.2)
        | .int8 =>
          let n := genIntBits 8 f.2
          some (.int n.1, n.2)
        | .uint8 =>
          let n := genUIntBits 8 f.2
          some (.int (n.1 : Int), n.2)
        | .int16 =>
          let n := genIntBits 16 f.2
          some (.int n.1, n.2)
        | .uint16 =>
          let n := genUIntBits 16 f.2
          some (.int (n.1 : Int), n.2)
        | .int32 =>
          let n := genIntBits 32 f.2
          some (.int n.1, n.2)
        | .uint32 =>
          let n := genUIntBits 32 f.2
          some (.int (n.1 : Int), n.2)
        | .string =>
          match hint with
          | some h =>
            if h ∈ recognizedHints then
              let p := Rng.next f.2
              some (.str (fakerStr h p.1), p.2)
            else
              let s := fuzzString f.2
              some (.str s.1, s.2)
          | none =>
            let s := fuzzString f.2
            some (.str s.1, s.2)
        | .timestamp =>
          let o := genOffset f.2
          let t := genIntBits 32 o.2
          some (.str (rfc3339Str o.1 t.1), t.2)
    | .enum nullable vals =>
      let f := nullFlip nullable rng
      if f.1 then some (.null, f.2)
      else
        let c := genRangeExcl 0 vals.length f.2
        match vals[c.1]? with
        | none => none
        | some v => some (.str v, c.2)
    | .elements nullable elem =>
      let f := nullFlip nullable rng
      if f.1 then some (.null, f.2)
      else
        let c := genRangeIncl 0 MAX_SEQ_LENGTH f.2
        match elemsLoop (fun r => fuzzWithRoot fuel defs r elem false) c.1 c.2 with
        | none => none
        | some (vs, rng) => some (.arr vs, rng)
    | .properties nullable props optProps additional =>
      let f := nullFlip nullable rng
      if f.1 then some (.null, f.2)
      else
        match requiredLoop (fun sub r => fuzzWithRoot fuel defs r sub false) props
            (sortStrs (keysOf props)) f.2 [] with
        | none => none
        | some (ms₁, rng₁) =>
          match optionalLoop (fun sub r => fuzzWithRoot fuel defs r sub false) optProps
              (sortStrs (keysOf optProps)) rng₁ ms₁ with
          | none => none
          | some (ms₂, rng₂) =>
            if additional then
              let lowered := (keysOf props ++ keysOf optProps).map toLower
              let c := genRangeIncl 0 MAX_SEQ_LENGTH rng₂
              match additionalLoop (fun r => fuzzWithRoot fuel [] r .empty true)
                  lowered c.1 c.2 ms₂ with
              | none => none
              | some (ms₃, rng₃) => some (.obj ms₃, rng₃)
            else some (.obj ms₂, rng₂)
    | .values nullable valSchema =>
      let f := nullFlip nullable rng
      if f.1 then some (.null, f.2)
      else
        let c := genRangeIncl 0 MAX_SEQ_LENGTH f.2
        match valuesLoop (fun r => fuzzWithRoot fuel defs r valSchema false) c.1 c.2 [] with
        | none => none
        | some (ms, rng) => some (.obj ms, rng)
    | .discriminator nullable discr mapping =>
      let f := nullFlip nullable rng
      if f.1 then some (.null, f.2)
      else
        let c := genRangeExcl 0 mapping.length f.2
        match mapping[c.1]? with
        | none => none
        | some (tag, sub) =>
          match fuzzWithRoot fuel defs c.2 sub false with
          | some (.obj ms, rng) => some (.obj (insertSorted discr (.str tag) ms), rng)
          | some _ => none
          | none => none

/-- `fuzz(schema, rng)` from src/lib.rs: generate with the given schema as
its own root (`defs` being that schema's definitions mapping). -/
def fuzz (fuel : Nat) (defs : Defs) (schema : Schema) (rng : Rng) : Option (Value × Rng) :=
  fuzzWithRoot fuel defs rng schema true

/-- An association list whose keys are in strictly increasing order (the
shape invariant of a `BTreeMap`'s iteration sequence). -/
def keySorted {α : Type} (ms : List (Str × α)) : Prop :=
  List.Chain' (fun a b => strLt a.1 b.1 = true) ms

theorem fuzzStringChars_length (n : Nat) : ∀ r : Rng, ((fuzzStringChars n r).1).length = n := by
  induction n with
  | zero => intro r; rfl
  | succ n ih => intro r; simp [fuzzStringChars, ih]

theorem fuzzString_length_le (r : Rng) : ((fuzzString r).1).length ≤ MAX_SEQ_LENGTH := by
  unfold fuzzString
  simp only [fuzzStringChars_length, genRangeIncl, MAX_SEQ_LENGTH]
  omega

theorem lookupA_insertSorted {α : Type} (k k' : Str) (v : α) (ms : List (Str × α)) :
    lookupA k (insertSorted k' v ms) = if k = k' then some v else lookupA k ms := by
  induction ms with
  | nil => simp [insertSorted, lookupA]
  | cons p rest ih =>
    simp only [insertSorted]
    by_cases h1 : strLt k' p.1
    · by_cases hk : k = k' <;> simp [h1, hk, lookupA]
    · by_cases h2 : k' = p.1
      · by_cases hk : k = k' <;> simp_all [lookupA]
      · by_cases hk : k = k' <;> by_cases hp : k = p.1 <;> simp_all [lookupA]

theorem isSome_lookupA_insertSorted {α : Type} (k k' : Str) (v : α) (ms : List (Str × α)) :
    (lookupA k (insertSorted k' v ms)).isSome = true ↔
      (k = k' ∨ (lookupA k ms).isSome = true) := by
  rw [lookupA_insertSorted]
  by_cases hk : k = k' <;> simp [hk]

theorem insertSorted_length {α : Type} (k : Str) (v : α) (ms : List (Str × α)) :
    (insertSorted k v ms).length ≤ ms.length + 1 := by
  induction ms with
  | nil => simp [insertSorted]
  | cons p rest ih =>
    simp only [insertSorted]
    split
    · simp
    · split
      · simp
      · simpa using Nat.succ_le_succ ih

theorem elemsLoop_length (F : Rng → Option (Value × Rng)) :
    ∀ (n : Nat) (r : Rng) (vs : List Value) (r' : Rng),
      elemsLoop F n r = some (vs, r') → vs.length = n := by
  intro n
  induction n with
  | zero =>
    intro r vs r' h
    simp only [elemsLoop, Option.some.injEq, Prod.mk.injEq] at h
    simp [← h.1]
  | succ n ih =>
    intro r vs r' h
    simp only [elemsLoop] at h
    split at h
    · simp at h
    · rename_i v r1 hF
      split at h
      · simp at h
      · rename_i vs1 r2 hrec
        simp only [Option.some.injEq, Prod.mk.injEq] at h
        have := ih r1 vs1 r2 hrec
        rw [← h.1]
        simp [this]

theorem valuesLoop_length (F : Rng → Option (Value × Rng)) :
    ∀ (n : Nat) (r : Rng) (ms ms' : List (Str × Value)) (r' : Rng),
      valuesLoop F n r ms = some (ms', r') → ms'.length ≤ ms.length + n := by
  intro n
  induction n with
  | zero =>
    intro r ms ms' r' h
    simp only [valuesLoop, Option.some.injEq, Prod.mk.injEq] at h
    simp [← h.1]
  | succ n ih =>
    intro r ms ms' r' h
    simp only [valuesLoop] at h
    rcases hF : F (fuzzString r).2 with _ | ⟨v, r1⟩ <;> rw [hF] at h
    · simp at h
    · have h1 := ih r1 (insertSorted (fuzzString r).1 v ms) ms' r' h
      have h2 := insertSorted_length (fuzzString r).1 v ms
      omega

theorem strLt_total (a b : Str) : strLt a b = true ∨ a = b ∨ strLt b a = true := by
  induction a generalizing b with
  | nil => cases b <;> simp [strLt]
  | cons x xs ih =>
    cases b with
    | nil => simp [strLt]
    | cons y ys =>
      rcases Nat.lt_trichotomy x y with h | h | h
      · left; simp [strLt, h]
      · subst h
        rcases ih ys with h' | h' | h'
        · left; simp [strLt, Nat.lt_irrefl, h']
        · right; left; simp [h']
        · right; right; simp [strLt, Nat.lt_irrefl, h']
      · right; right; simp [strLt, h, Nat.lt_asymm h]

theorem head_key_insertSorted {α : Type} (k : Str) (v : α) (ms : List (Str × α)) :
    ∀ q ∈ (insertSorted k v ms).head?, q.1 = k ∨ ∃ p ∈ ms.head?, q.1 = p.1 := by
  cases ms with
  | nil =>
    intro q hq
    simp only [insertSorted, List.head?_cons, Option.mem_def, Option.some.injEq] at hq
    left; simp [← hq]
  | cons p rest =>
    intro q hq
    simp only [insertSorted] at hq
    split at hq
    · simp only [List.head?_cons, Option.mem_def, Option.some.injEq] at hq
      left; simp [← hq]
    · split at hq
      · simp only [List.head?_cons, Option.mem_def, Option.some.injEq] at hq
        left; simp [← hq]
      · simp only [List.head?_cons, Option.mem_def, Option.some.injEq] at hq
        right; exact ⟨p, by simp, by simp [← hq]⟩

theorem keySorted_insertSorted {α : Type} (k : Str) (v : α) (ms : List (Str × α))
    (h : keySorted ms) : keySorted (insertSorted k v ms) := by
  induction ms with
  | nil => simp [insertSorted, keySorted]
  | cons p rest ih =>
    unfold keySorted at h ⊢
    rw [List.chain'_cons'] at h
    simp only [insertSorted]
    by_cases h1 : strLt k p.1
    · rw [if_pos h1, List.chain'_cons']
      refine ⟨?_, List.chain'_cons'.mpr h⟩
      intro q hq
      simp only [List.head?_cons, Option.mem_def, Option.some.injEq] at hq
      rw [← hq]
      exact h1
    · rw [if_neg h1]
      by_cases h2 : k = p.1
      · rw [if_pos h2, List.chain'_cons']
        refine ⟨?_, h.2⟩
        intro q hq
        rw [h2]
        exact h.1 q hq
      · rw [if_neg h2, List.chain'_cons']
        refine ⟨?_, ih h.2⟩
        intro q hq
        rcases head_key_insertSorted k v rest q hq with hqk | ⟨p', hp', hq'⟩
        · rcases strLt_total k p.1 with h' | h' | h'
          · exact absurd h' h1
          · exact absurd h' h2
          · rw [hqk]; exact h'
        · rw [hq']; exact h.1 p' hp'

theorem mem_insortStr (k : Str) (l : List Str) (a : Str) :
    a ∈ insortStr k l ↔ a = k ∨ a ∈ l := by
  induction l with
  | nil => simp [insortStr]
  | cons x xs ih =>
    simp only [insortStr]
    split
    · simp
    · simp [ih]; tauto

theorem mem_sortStrs (l : List Str) (a : Str) : a ∈ sortStrs l ↔ a ∈ l := by
  induction l with
  | nil => simp [sortStrs]
  | cons x xs ih => simp [sortStrs, mem_insortStr, ih]

theorem requiredLoop_lookup (F : Schema → Rng → Option (Value × Rng))
    (ps : List (Str × Schema)) :
    ∀ (ks : List Str) (rng : Rng) (ms ms' : List (Str × Value)) (r' : Rng),
      requiredLoop F ps ks rng ms = some (ms', r') →
      ∀ k, (lookupA k ms').isSome = true ↔ (k ∈ ks ∨ (lookupA k ms).isSome = true) := by
  intro ks
  induction ks with
  | nil =>
    intro rng ms ms' r' h k
    simp only [requiredLoop, Option.some.injEq, Prod.mk.injEq] at h
    rw [← h.1]
    simp
  | cons k₀ ks ih =>
    intro rng ms ms' r' h k
    simp only [requiredLoop] at h
    split at h
    · simp at h
    · rename_i sub hsub
      split at h
      · simp at h
      · rename_i v rng₁ hF
        have hrec := ih rng₁ (insertSorted k₀ v ms) ms' r' h k
        rw [hrec, isSome_lookupA_insertSorted]
        simp only [List.mem_cons]
        tauto

theorem optionalLoop_spec (F : Schema → Rng → Option (Value × Rng))
    (ps : List (Str × Schema)) :
    ∀ (ks : List Str) (rng : Rng) (ms ms' : List (Str × Value)) (r' : Rng),
      optionalLoop F ps ks rng ms = some (ms', r') →
      ∃ sel, selectedOptionals F ps ks rng = some (sel, r') ∧
        (∀ x ∈ sel, x ∈ ks) ∧
        (∀ k, (lookupA k ms').isSome = true ↔ (k ∈ sel ∨ (lookupA k ms).isSome = true)) := by
  intro ks
  induction ks with
  | nil =>
    intro rng ms ms' r' h
    simp only [optionalLoop, Option.some.injEq, Prod.mk.injEq] at h
    refine ⟨[], by simp [selectedOptionals, h.2], by simp, fun k => by rw [← h.1]; simp⟩
  | cons k₀ ks ih =>
    intro rng ms ms' r' h
    simp only [optionalLoop] at h
    by_cases hc : (genBool rng).1 = true
    · rw [if_pos hc] at h
      obtain ⟨sel, h1, h2, h3⟩ := ih (genBool rng).2 ms ms' r' h
      exact ⟨sel, by simp [selectedOptionals, hc, h1],
        fun x hx => List.mem_cons_of_mem _ (h2 x hx), h3⟩
    · rw [if_neg hc] at h
      split at h
      · simp at h
      · rename_i sub hsub
        split at h
        · simp at h
        · rename_i v rng₁ hF
          obtain ⟨sel, h1, h2, h3⟩ := ih rng₁ (insertSorted k₀ v ms) ms' r' h
          refine ⟨k₀ :: sel, ?_, ?_, ?_⟩
          · simp [selectedOptionals, hc, hsub, hF, h1]
          · intro x hx
            rcases List.mem_cons.mp hx with he | hm
            · rw [he]; exact List.mem_cons_self _ _
            · exact List.mem_cons_of_mem _ (h2 x hm)
          · intro k
            rw [h3 k, isSome_lookupA_insertSorted]
            simp only [List.mem_cons]
            tauto

theorem additionalLoop_lookup (F : Rng → Option (Value × Rng)) (lowered : List Str) :
    ∀ (n : Nat) (rng : Rng) (ms ms' : List (Str × Value)) (r' : Rng),
      additionalLoop F lowered n rng ms = some (ms', r') →
      ∀ k,
        ((lookupA k ms').isSome = true →
          (lookupA k ms).isSome = true ∨ toLower k ∉ lowered) ∧
        ((lookupA k ms).isSome = true → (lookupA k ms').isSome = true) ∧
        (toLower k ∈ lowered → lookupA k ms' = lookupA k ms) := by
  intro n
  induction n with
  | zero =>
    intro rng ms ms' r' h k
    simp only [additionalLoop, Option.some.injEq, Prod.mk.injEq] at h
    rw [← h.1]
    exact ⟨fun hk => Or.inl hk, id, fun _ => rfl⟩
  | succ n ih =>
    intro rng ms ms' r' h k
    simp only [additionalLoop] at h
    by_cases hin : toLower (fuzzString rng).1 ∈ lowered
    · rw [if_pos hin] at h
      exact ih (fuzzString rng).2 ms ms' r' h k
    · rw [if_neg hin] at h
      split at h
      · simp at h
      · rename_i v rng₁ hF
        have IH := ih rng₁ (insertSorted (fuzzString rng).1 v ms) ms' r' h k
        refine ⟨?_, ?_, ?_⟩
        · intro hk
          rcases IH.1 hk with hk' | hk'
          · rw [isSome_lookupA_insertSorted] at hk'
            rcases hk' with he | hk''
            · right; rw [he]; exact hin
            · left; exact hk''
          · right; exact hk'
        · intro hk
          exact IH.2.1 (by rw [isSome_lookupA_insertSorted]; right; exact hk)
        · intro hk
          have hne : k ≠ (fuzzString rng).1 := by
            intro he; apply hin; rw [← he]; exact hk
          rw [IH.2.2 hk, lookupA_insertSorted, if_neg hne]

theorem elements_some_arr (fuel : Nat) (defs : Defs) (rng : Rng) (elem : Schema)
    (isRoot : Bool) (v : Value) (r' : Rng)
    (h : fuzzWithRoot fuel defs rng (.elements false elem) isRoot = some (v, r')) :
    ∃ vs, v = .arr vs := by
  cases fuel with
  | zero => simp [fuzzWithRoot] at h
  | succ n =>
    simp [fuzzWithRoot, nullFlip] at h
    split at h
    · simp at h
    · rename_i vs rng₂ hloop
      simp only [Option.some.injEq, Prod.mk.injEq] at h
      exact ⟨vs, h.1.symm⟩

theorem values_some_obj (fuel : Nat) (defs : Defs) (rng : Rng) (valSchema : Schema)
    (isRoot : Bool) (v : Value) (r' : Rng)
    (h : fuzzWithRoot fuel defs rng (.values false valSchema) isRoot = some (v, r')) :
    ∃ ms, v = .obj ms := by
  cases fuel with
  | zero => simp [fuzzWithRoot] at h
  | succ n =>
    simp [fuzzWithRoot, nullFlip] at h
    split at h
    · simp at h
    · rename_i ms rng₂ hloop
      simp only [Option.some.injEq, Prod.mk.injEq] at h
      exact ⟨ms, h.1.symm⟩

/-- Whether a form carries the leading nullability coin flip of the
Dispatcher rule (every non-Empty, non-Ref form). -/
def coinFlipForm : Schema → Bool
  | .empty => false
  | .ref _ _ => false
  | .type _ _ _ => true
  | .enum _ _ => true
  | .elements _ _ => true
  | .properties _ _ _ _ => true
  | .values _ _ => true
  | .discriminator _ _ _ => true

/-- The `nullable` flag of a schema node (`false` for Empty, which has none). -/
def nullableOf : Schema → Bool
  | .empty => false
  | .ref n _ => n
  | .type _ n _ => n
  | .enum n _ => n
  | .elements n _ => n
  | .properties n _ _ _ => n
  | .values n _ => n
  | .discriminator n _ _ => n

/-- The same schema node with its `nullable` flag cleared. -/
def setNullableFalse : Schema → Schema
  | .type h _ t => .type h false t
  | .enum _ v => .enum false v
  | .elements _ e => .elements false e
  | .properties _ p o a => .properties false p o a
  | .values _ v => .values false v
  | .discriminator _ d m => .discriminator false d m
  | s => s

/-- The seven top-level shapes a JSON value can have. -/
inductive Kind where
  | knull | kbool | kint | kfloat | kstr | karr | kobj
deriving DecidableEq

/-- The top-level shape of a value. -/
def kindOf : Value → Kind
  | .null => .knull
  | .bool _ => .kbool
  | .int _ => .kint
  | .float32 _ => .kfloat
  | .float64 _ => .kfloat
  | .str _ => .kstr
  | .arr _ => .karr
  | .obj _ => .kobj

/-- The shape selected by each outcome index of the `Empty` arm's draw
(null, boolean, uint8, float64, string, array-of-Empty, object-of-Empty). -/
def emptyKind : Nat → Kind
  | 0 => .knull
  | 1 => .kbool
  | 2 => .kint
  | 3 => .kfloat
  | 4 => .kstr
  | 5 => .karr
  | 6 => .kobj
  | _ => .knull

/-- Claim C1 (evidence of the code bug): `fuzz_string` draws its characters
from the inclusive range `32..=127`, so it can emit code point 127 (DEL),
which is outside the printable ASCII range 32-126 claimed by the spec and
by the crate's own doc comment: on draw stream `[1, 95]` (length draw 1,
character draw 95) the generated string is the single character 127. -/
theorem claim_C1_fuzz_string_emits_del :
    (fuzzString ⟨[1, 95]⟩).1 = [127] ∧ ¬ (127 ≤ 126) :=
  ⟨rfl, by omega⟩

/-- Claim C2: every generic bounded string has length at most
MAX_SEQ_LENGTH = 8, every array generated for an Elements form has at most
8 elements, and every map generated for a Values form has at most 8
members; each bound comes from a length drawn in `[0, 8]` before the items
are generated. -/
theorem claim_C2_bounded_size :
    (∀ r : Rng, ((fuzzString r).1).length ≤ MAX_SEQ_LENGTH) ∧
    (∀ (fuel : Nat) (defs : Defs) (rng : Rng) (nullable : Bool) (elem : Schema)
        (isRoot : Bool) (vs : List Value) (r' : Rng),
      fuzzWithRoot fuel defs rng (.elements nullable elem) isRoot = some (.arr vs, r') →
      vs.length ≤ MAX_SEQ_LENGTH) ∧
    (∀ (fuel : Nat) (defs : Defs) (rng : Rng) (nullable : Bool) (valSchema : Schema)
        (isRoot : Bool) (ms : List (Str × Value)) (r' : Rng),
      fuzzWithRoot fuel defs rng (.values nullable valSchema) isRoot = some (.obj ms, r') →
      ms.length ≤ MAX_SEQ_LENGTH) := by
  refine ⟨fuzzString_length_le, ?_, ?_⟩
  · intro fuel defs rng nullable elem isRoot vs r' h
    cases fuel with
    | zero => simp [fuzzWithRoot] at h
    | succ n =>
      simp only [fuzzWithRoot] at h
      split at h
      · simp at h
      · split at h
        · simp at h
        · rename_i vs1 rng₂ hloop
          simp only [Option.some.injEq, Prod.mk.injEq, Value.arr.injEq] at h
          have hlen := elemsLoop_length _ _ _ _ _ hloop
          rw [← h.1, hlen]
          simp only [genRangeIncl, MAX_SEQ_LENGTH]
          omega
  · intro fuel defs rng nullable valSchema isRoot ms r' h
    cases fuel with
    | zero => simp [fuzzWithRoot] at h
    | succ n =>
      simp only [fuzzWithRoot] at h
      split at h
      · simp at h
      · split at h
        · simp at h
        · rename_i ms1 rng₂ hloop
          simp only [Option.some.injEq, Prod.mk.injEq, Value.obj.injEq] at h
          have hlen := valuesLoop_length _ _ _ _ _ _ hloop
          rw [← h.1]
          simp only [genRangeIncl, MAX_SEQ_LENGTH, List.length_nil] at hlen ⊢
          omega

/-- Claim C2 witness: a concrete Elements run with length draw 0 produces
an empty array, within the bound. -/
theorem claim_C2_witness :
    fuzzWithRoot 2 [] ⟨[0]⟩ (.elements false .empty) false = some (.arr [], ⟨[]⟩) ∧
    ([] : List Value).length ≤ MAX_SEQ_LENGTH :=
  ⟨rfl, claim_C2_bounded_size.2.1 2 [] ⟨[0]⟩ false .empty false [] ⟨[]⟩ rfl⟩

/-- Claim C6: every non-Empty, non-Ref form with `nullable = true` first
draws exactly one boolean; if it is true the result is `null` with no
further randomness consumed, and otherwise the rest of the generation is
exactly the generation of the same node with `nullable = false` from the
advanced random state. -/
theorem claim_C6_null_coin_first (fuel : Nat) (defs : Defs) (rng : Rng) (node : Schema)
    (isRoot : Bool) (h1 : coinFlipForm node = true) (h2 : nullableOf node = true) :
    fuzzWithRoot (fuel + 1) defs rng node isRoot =
      (if (genBool rng).1 = true then some (Value.null, (genBool rng).2)
       else fuzzWithRoot (fuel + 1) defs (genBool rng).2 (setNullableFalse node) isRoot) := by
  cases node with
  | empty => simp [coinFlipForm] at h1
  | ref nullable name => simp [coinFlipForm] at h1
  | type hint nullable ty =>
    cases nullable with
    | false => simp [nullableOf] at h2
    | true =>
      by_cases hb : (genBool rng).1 = true <;>
        simp [fuzzWithRoot, nullFlip, setNullableFalse, hb]
  | enum nullable vals =>
    cases nullable with
    | false => simp [nullableOf] at h2
    | true =>
      by_cases hb : (genBool rng).1 = true <;>
        simp [fuzzWithRoot, nullFlip, setNullableFalse, hb]
  | elements nullable elem =>
    cases nullable with
    | false => simp [nullableOf] at h2
    | true =>
      by_cases hb : (genBool rng).1 = true <;>
        simp [fuzzWithRoot, nullFlip, setNullableFalse, hb]
  | properties nullable props optProps additional =>
    cases nullable with
    | false => simp [nullableOf] at h2
    | true =>
      by_cases hb : (genBool rng).1 = true <;>
        simp [fuzzWithRoot, nullFlip, setNullableFalse, hb]
  | values nullable valSchema =>
    cases nullable with
    | false => simp [nullableOf] at h2
    | true =>
      by_cases hb : (genBool rng).1 = true <;>
        simp [fuzzWithRoot, nullFlip, setNullableFalse, hb]
  | discriminator nullable discr mapping =>
    cases nullable with
    | false => simp [nullableOf] at h2
    | true =>
      by_cases hb : (genBool rng).1 = true <;>
        simp [fuzzWithRoot, nullFlip, setNullableFalse, hb]

/-- Claim C6 witness: concrete instance on a nullable boolean node whose
coin flip selects null. -/
theorem claim_C6_witness :
    coinFlipForm (Schema.type none true Ty.boolean) = true ∧
    nullableOf (Schema.type none true Ty.boolean) = true ∧
    fuzzWithRoot 1 [] ⟨[1]⟩ (Schema.type none true Ty.boolean) false =
      (if (genBool ⟨[1]⟩).1 = true then some (Value.null, (genBool ⟨[1]⟩).2)
       else fuzzWithRoot 1 [] (genBool ⟨[1]⟩).2
         (setNullableFalse (Schema.type none true Ty.boolean)) false) :=
  ⟨rfl, rfl, claim_C6_null_coin_first 0 [] ⟨[1]⟩ (Schema.type none true Ty.boolean) false rfl rfl⟩

/-- Claim C9: generation is deterministic — two runs over the same schema
from random sources in identical states produce identical results; the
output is a function only of (schema, definitions, RNG state). -/
theorem claim_C9_deterministic (fuel : Nat) (defs : Defs) (schema : Schema)
    (r₁ r₂ : Rng) (h : r₁.stream = r₂.stream) :
    fuzz fuel defs schema r₁ = fuzz fuel defs schema r₂ := by
  cases r₁ with
  | mk s₁ =>
    cases r₂ with
    | mk s₂ => cases h; rfl

/-- Claim C9 witness: concrete instance on the empty schema. -/
theorem claim_C9_witness :
    (Rng.mk [3, 1, 4]).stream = (Rng.mk [3, 1, 4]).stream ∧
    fuzz 1 [] Schema.empty (Rng.mk [3, 1, 4]) = fuzz 1 [] Schema.empty (Rng.mk [3, 1, 4]) :=
  ⟨rfl, claim_C9_deterministic 1 [] Schema.empty (Rng.mk [3, 1, 4]) (Rng.mk [3, 1, 4]) rfl⟩

/-- Claim C10: a Ref node with `nullable = true` draws one boolean before
resolving the reference; when the flip is true the result is null, exactly
one draw is consumed, and the root's definitions mapping is not consulted
at all (the result is the same for any two definitions mappings). -/
theorem claim_C10_ref_nullable (fuel : Nat) (defs defs' : Defs) (rng : Rng)
    (name : Str) (isRoot : Bool) (h : (genBool rng).1 = true) :
    fuzzWithRoot (fuel + 1) defs rng (.ref true name) isRoot
      = some (.null, (genBool rng).2) ∧
    fuzzWithRoot (fuel + 1) defs rng (.ref true name) isRoot =
      fuzzWithRoot (fuel + 1) defs' rng (.ref true name) isRoot := by
  constructor <;> simp [fuzzWithRoot, nullFlip, h]

/-- Claim C10 witness: concrete nullable ref whose flip selects null, with
two different definitions mappings. -/
theorem claim_C10_witness :
    (genBool ⟨[1]⟩).1 = true ∧
    fuzzWithRoot 1 [] ⟨[1]⟩ (.ref true [97]) false = some (.null, (genBool ⟨[1]⟩).2) ∧
    fuzzWithRoot 1 [] ⟨[1]⟩ (.ref true [97]) false =
      fuzzWithRoot 1 [([97], Schema.empty)] ⟨[1]⟩ (.ref true [97]) false :=
  ⟨rfl, claim_C10_ref_nullable 0 [] [([97], Schema.empty)] ⟨[1]⟩ [97] false rfl⟩

/-- Claim C7: an Empty node draws its outcome from 7 possibilities (null,
boolean, uint8, float64, string, one-level array of Empty, one-level
object of Empty) when the node is the call's root, and from only the first
5 scalar/string possibilities otherwise, so a non-root Empty node never
produces an array or an object. -/
theorem claim_C7_empty_restriction (fuel : Nat) (defs : Defs) (rng : Rng)
    (isRoot : Bool) (v : Value) (r' : Rng)
    (h : fuzzWithRoot (fuel + 1) defs rng .empty isRoot = some (v, r')) :
    kindOf v = emptyKind (rng.next.1 % (if isRoot then 7 else 5)) ∧
    (isRoot = false → kindOf v ≠ .karr ∧ kindOf v ≠ .kobj) := by
  cases isRoot with
  | false =>
    simp only [fuzzWithRoot, genRangeExcl, Bool.false_eq_true, if_false,
      Nat.zero_add] at h ⊢
    have h5 : rng.next.1 % 5 < 5 := Nat.mod_lt _ (by norm_num)
    have hc : rng.next.1 % 5 = 0 ∨ rng.next.1 % 5 = 1 ∨ rng.next.1 % 5 = 2 ∨
        rng.next.1 % 5 = 3 ∨ rng.next.1 % 5 = 4 := by omega
    rcases hc with hc | hc | hc | hc | hc <;> rw [hc] at h ⊢ <;> simp at h <;>
      simp [← h.1, kindOf, emptyKind]
  | true =>
    simp only [fuzzWithRoot, genRangeExcl, if_true, Nat.zero_add] at h ⊢
    have h7 : rng.next.1 % 7 < 7 := Nat.mod_lt _ (by norm_num)
    have hc : rng.next.1 % 7 = 0 ∨ rng.next.1 % 7 = 1 ∨ rng.next.1 % 7 = 2 ∨
        rng.next.1 % 7 = 3 ∨ rng.next.1 % 7 = 4 ∨ rng.next.1 % 7 = 5 ∨
        rng.next.1 % 7 = 6 := by omega
    rcases hc with hc | hc | hc | hc | hc | hc | hc <;> rw [hc] at h ⊢
    · simp at h; simp [← h.1, kindOf, emptyKind]
    · simp at h; simp [← h.1, kindOf, emptyKind]
    · simp at h; simp [← h.1, kindOf, emptyKind]
    · simp at h; simp [← h.1, kindOf, emptyKind]
    · simp at h; simp [← h.1, kindOf, emptyKind]
    · simp at h
      obtain ⟨vs, hvs⟩ := elements_some_arr _ _ _ _ _ _ _ h
      simp [hvs, kindOf, emptyKind]
    · simp at h
      obtain ⟨ms, hms⟩ := values_some_obj _ _ _ _ _ _ _ h
      simp [hms, kindOf, emptyKind]

/-- Claim C7 witness: a non-root Empty run with outcome index 2 produces a
uint8 scalar, never a container. -/
theorem claim_C7_witness :
    fuzzWithRoot 1 [] ⟨[2, 9]⟩ Schema.empty false = some (Value.int 9, ⟨[]⟩) ∧
    (kindOf (Value.int 9) = emptyKind ((Rng.mk [2, 9]).next.1 % (if false then 7 else 5)) ∧
     (false = false → kindOf (Value.int 9) ≠ Kind.karr ∧ kindOf (Value.int 9) ≠ Kind.kobj)) :=
  ⟨rfl, claim_C7_empty_restriction 0 [] ⟨[2, 9]⟩ false (Value.int 9) ⟨[]⟩ rfl⟩

theorem mem_of_getElemQ {α : Type} :
    ∀ (l : List α) (i : Nat) (a : α), l[i]? = some a → a ∈ l := by
  intro l
  induction l with
  | nil => intro i a h; simp at h
  | cons x xs ih =>
    intro i a h
    cases i with
    | zero => simp at h; simp [h]
    | succ n =>
      simp only [List.getElem?_cons_succ] at h
      exact List.mem_cons_of_mem _ (ih n a h)

/-- Claim C8: for a Discriminator whose coin flip does not select null
(modelled with the flag false; the nullable case factors through the C6
equation), one (tag, sub-schema) pair is chosen by a single uniform index
draw into the mapping, the value is generated from that sub-schema, and
the discriminator member is present in the result and equal to the chosen
tag, inserted under the discriminator's member name, overwriting any
member of that name; every other member is exactly the sub-schema
object's. -/
theorem claim_C8_discriminator_shape (fuel : Nat) (defs : Defs) (rng : Rng)
    (discr : Str) (mapping : List (Str × Schema)) (isRoot : Bool)
    (v : Value) (r' : Rng)
    (h : fuzzWithRoot (fuel + 1) defs rng (.discriminator false discr mapping) isRoot
        = some (v, r')) :
    ∃ tag sub ms₀,
      (tag, sub) ∈ mapping ∧
      mapping[(genRangeExcl 0 mapping.length rng).1]? = some (tag, sub) ∧
      fuzzWithRoot fuel defs (genRangeExcl 0 mapping.length rng).2 sub false
        = some (.obj ms₀, r') ∧
      v = .obj (insertSorted discr (.str tag) ms₀) ∧
      lookupA discr (insertSorted discr (.str tag) ms₀) = some (.str tag) ∧
      (∀ k, k ≠ discr → lookupA k (insertSorted discr (.str tag) ms₀) = lookupA k ms₀) := by
  simp only [fuzzWithRoot, nullFlip] at h
  simp only [Bool.false_eq_true, if_false] at h
  split at h
  · simp at h
  · rename_i tag sub hget
    split at h
    · rename_i ms₀ rsub hsub
      simp only [Option.some.injEq, Prod.mk.injEq] at h
      refine ⟨tag, sub, ms₀, mem_of_getElemQ _ _ _ hget, hget, ?_, ?_, ?_, ?_⟩
      · rw [hsub, h.2]
      · exact h.1.symm
      · rw [lookupA_insertSorted, if_pos rfl]
      · intro k hk
        rw [lookupA_insertSorted, if_neg hk]
    · simp at h
    · simp at h

/-- Claim C8 witness: a concrete one-branch discriminator run; the branch
object is empty and the discriminator member carries the chosen tag. -/
theorem claim_C8_witness :
    fuzzWithRoot 2 [] ⟨[0]⟩
      (.discriminator false [100] [([118, 49], .properties false [] [] false)]) false
      = some (.obj [([100], .str [118, 49])], ⟨[]⟩) ∧
    (∃ tag sub ms₀,
      (tag, sub) ∈ [([118, 49], Schema.properties false [] [] false)] ∧
      [([118, 49], Schema.properties false [] [] false)][(genRangeExcl 0
        [([118, 49], Schema.properties false [] [] false)].length ⟨[0]⟩).1]?
        = some (tag, sub) ∧
      fuzzWithRoot 1 [] (genRangeExcl 0
        [([118, 49], Schema.properties false [] [] false)].length ⟨[0]⟩).2 sub false
        = some (.obj ms₀, ⟨[]⟩) ∧
      Value.obj [([100], Value.str [118, 49])]
        = .obj (insertSorted [100] (.str tag) ms₀) ∧
      lookupA [100] (insertSorted [100] (.str tag) ms₀) = some (.str tag) ∧
      (∀ k, k ≠ [100] →
        lookupA k (insertSorted [100] (.str tag) ms₀) = lookupA k ms₀)) :=
  ⟨rfl, claim_C8_discriminator_shape 1 [] ⟨[0]⟩ [100]
    [([118, 49], .properties false [] [] false)] false
    (.obj [([100], .str [118, 49])]) ⟨[]⟩ rfl⟩

theorem properties_inversion (fuel : Nat) (defs : Defs) (rng : Rng) (nullable : Bool)
    (props optProps : List (Str × Schema)) (additional : Bool) (isRoot : Bool)
    (ms : List (Str × Value)) (r' : Rng)
    (h : fuzzWithRoot (fuel + 1) defs rng (.properties nullable props optProps additional) isRoot
        = some (.obj ms, r')) :
    ∃ ms₁ rng₁ ms₂ rng₂,
      requiredLoop (fun sub r => fuzzWithRoot fuel defs r sub false) props
        (sortStrs (keysOf props)) (nullFlip nullable rng).2 [] = some (ms₁, rng₁) ∧
      optionalLoop (fun sub r => fuzzWithRoot fuel defs r sub false) optProps
        (sortStrs (keysOf optProps)) rng₁ ms₁ = some (ms₂, rng₂) ∧
      ((additional = false ∧ ms = ms₂ ∧ r' = rng₂) ∨
       (additional = true ∧
        additionalLoop (fun r => fuzzWithRoot fuel [] r .empty true)
          ((keysOf props ++ keysOf optProps).map toLower)
          (genRangeIncl 0 MAX_SEQ_LENGTH rng₂).1 (genRangeIncl 0 MAX_SEQ_LENGTH rng₂).2 ms₂
          = some (ms, r'))) := by
  simp only [fuzzWithRoot] at h
  split at h
  · simp at h
  · split at h
    · simp at h
    · rename_i ms₁ rng₁ hreq
      split at h
      · simp at h
      · rename_i ms₂ rng₂ hopt
        refine ⟨ms₁, rng₁, ms₂, rng₂, hreq, hopt, ?_⟩
        cases additional with
        | false =>
          simp only [Bool.false_eq_true, if_false, Option.some.injEq,
            Prod.mk.injEq, Value.obj.injEq] at h
          exact Or.inl ⟨rfl, h.1.symm, h.2.symm⟩
        | true =>
          simp only [if_true] at h
          split at h
          · simp at h
          · rename_i ms₃ rng₃ hadd
            simp only [Option.some.injEq, Prod.mk.injEq, Value.obj.injEq] at h
            refine Or.inr ⟨rfl, ?_⟩
            rw [h.1, h.2] at hadd
            exact hadd

/-- Claim C3: for a Properties schema whose coin flip does not select
null, every required member name is present in the generated object, and
an optional member name appears in the object if and only if its
per-member boolean draw selected inclusion (`sel` is the loop's list of
selected optional keys, produced by the same draws). -/
theorem claim_C3_required_optional (fuel : Nat) (defs : Defs) (rng : Rng)
    (nullable : Bool) (props optProps : List (Str × Schema)) (additional : Bool)
    (isRoot : Bool) (ms : List (Str × Value)) (r' : Rng)
    (h : fuzzWithRoot (fuel + 1) defs rng
        (.properties nullable props optProps additional) isRoot = some (.obj ms, r')) :
    (∀ k ∈ keysOf props, (lookupA k ms).isSome = true) ∧
    (∃ ms₁ rng₁ sel rng₂,
      requiredLoop (fun sub r => fuzzWithRoot fuel defs r sub false) props
        (sortStrs (keysOf props)) (nullFlip nullable rng).2 [] = some (ms₁, rng₁) ∧
      selectedOptionals (fun sub r => fuzzWithRoot fuel defs r sub false) optProps
        (sortStrs (keysOf optProps)) rng₁ = some (sel, rng₂) ∧
      ∀ k, k ∈ keysOf optProps → k ∉ keysOf props →
        ((lookupA k ms).isSome = true ↔ k ∈ sel)) := by
  obtain ⟨ms₁, rng₁, ms₂, rng₂, hreq, hopt, hrest⟩ :=
    properties_inversion fuel defs rng nullable props optProps additional isRoot ms r' h
  obtain ⟨sel, hsel, hselsub, hiff⟩ := optionalLoop_spec _ _ _ _ _ _ _ hopt
  have hreqlook := requiredLoop_lookup _ _ _ _ _ _ _ hreq
  have hms2r : ∀ k, k ∈ keysOf props → (lookupA k ms₂).isSome = true := by
    intro k hk
    rw [hiff k]
    right
    rw [hreqlook k]
    left
    exact (mem_sortStrs _ _).mpr hk
  have hms2o : ∀ k, k ∉ keysOf props → ((lookupA k ms₂).isSome = true ↔ k ∈ sel) := by
    intro k hk
    rw [hiff k]
    constructor
    · rintro (hs | hs)
      · exact hs
      · rw [hreqlook k] at hs
        rcases hs with hs | hs
        · exact absurd ((mem_sortStrs _ _).mp hs) hk
        · simp [lookupA] at hs
    · exact Or.inl
  constructor
  · intro k hk
    rcases hrest with ⟨_, hms, _⟩ | ⟨_, hadd⟩
    · rw [hms]; exact hms2r k hk
    · exact (additionalLoop_lookup _ _ _ _ _ _ _ hadd k).2.1 (hms2r k hk)
  · refine ⟨ms₁, rng₁, sel, rng₂, hreq, hsel, ?_⟩
    intro k hko hkp
    rcases hrest with ⟨_, hms, _⟩ | ⟨_, hadd⟩
    · rw [hms]; exact hms2o k hkp
    · have hlow : toLower k ∈ (keysOf props ++ keysOf optProps).map toLower :=
        List.mem_map_of_mem _ (List.mem_append_right _ hko)
      rw [← hms2o k hkp]
      rw [(additionalLoop_lookup _ _ _ _ _ _ _ hadd k).2.2 hlow]

/-- Claim C3 witness: concrete run with one required member [98] and one
optional member [99] whose flip (draw 0, even, i.e. "do not skip")
selects inclusion. -/
theorem claim_C3_witness :
    fuzzWithRoot 2 [] ⟨[7, 0, 9]⟩
      (.properties false [([98], .type none false .uint8)]
        [([99], .type none false .uint8)] false) false
      = some (.obj [([98], Value.int 7), ([99], Value.int 9)], ⟨[]⟩) ∧
    ((∀ k ∈ keysOf [([98], Schema.type none false Ty.uint8)],
        (lookupA k [([98], Value.int 7), ([99], Value.int 9)]).isSome = true) ∧
     (∃ ms₁ rng₁ sel rng₂,
       requiredLoop (fun sub r => fuzzWithRoot 1 [] r sub false)
         [([98], Schema.type none false Ty.uint8)]
         (sortStrs (keysOf [([98], Schema.type none false Ty.uint8)]))
         (nullFlip false ⟨[7, 0, 9]⟩).2 [] = some (ms₁, rng₁) ∧
       selectedOptionals (fun sub r => fuzzWithRoot 1 [] r sub false)
         [([99], Schema.type none false Ty.uint8)]
         (sortStrs (keysOf [([99], Schema.type none false Ty.uint8)])) rng₁
         = some (sel, rng₂) ∧
       ∀ k, k ∈ keysOf [([99], Schema.type none false Ty.uint8)] →
         k ∉ keysOf [([98], Schema.type none false Ty.uint8)] →
         ((lookupA k [([98], Value.int 7), ([99], Value.int 9)]).isSome = true ↔
           k ∈ sel))) :=
  ⟨rfl, claim_C3_required_optional 1 [] ⟨[7, 0, 9]⟩ false
    [([98], .type none false .uint8)] [([99], .type none false .uint8)] false false
    [([98], Value.int 7), ([99], Value.int 9)] ⟨[]⟩ rfl⟩

/-- Claim C4: with additional properties allowed, every key of the
generated object is either a required key, an optional key, or a key whose
case-folded form avoids the case-folded set of all fixed member names — so
no key inserted by the additional pass case-insensitively collides with a
required or optional member name. -/
theorem claim_C4_no_case_collision (fuel : Nat) (defs : Defs) (rng : Rng)
    (nullable : Bool) (props optProps : List (Str × Schema))
    (isRoot : Bool) (ms : List (Str × Value)) (r' : Rng)
    (h : fuzzWithRoot (fuel + 1) defs rng
        (.properties nullable props optProps true) isRoot = some (.obj ms, r')) :
    ∀ k, (lookupA k ms).isSome = true →
      k ∈ keysOf props ∨ k ∈ keysOf optProps ∨
        toLower k ∉ (keysOf props ++ keysOf optProps).map toLower := by
  obtain ⟨ms₁, rng₁, ms₂, rng₂, hreq, hopt, hrest⟩ :=
    properties_inversion fuel defs rng nullable props optProps true isRoot ms r' h
  rcases hrest with ⟨hfalse, _, _⟩ | ⟨_, hadd⟩
  · exact absurd hfalse (by simp)
  · intro k hk
    rcases (additionalLoop_lookup _ _ _ _ _ _ _ hadd k).1 hk with h2 | h2
    · obtain ⟨sel, hsel, hselsub, hiff⟩ := optionalLoop_spec _ _ _ _ _ _ _ hopt
      rcases (hiff k).mp h2 with h3 | h3
      · right; left
        exact (mem_sortStrs _ _).mp (hselsub k h3)
      · rw [requiredLoop_lookup _ _ _ _ _ _ _ hreq k] at h3
        rcases h3 with h3 | h3
        · left; exact (mem_sortStrs _ _).mp h3
        · simp [lookupA] at h3
    · right; right; exact h2

/-- Claim C4 witness: run with required member [98] ("b") and one
additional draw producing key [97] ("a"); every key of the output is a
fixed name or case-fold-avoids the fixed names. -/
theorem claim_C4_witness :
    fuzzWithRoot 3 [] ⟨[7, 1, 1, 65, 0]⟩
      (.properties false [([98], .type none false .uint8)] [] true) false
      = some (.obj [([97], Value.null), ([98], Value.int 7)], ⟨[]⟩) ∧
    (∀ k, (lookupA k [([97], Value.null), ([98], Value.int 7)]).isSome = true →
      k ∈ keysOf [([98], Schema.type none false Ty.uint8)] ∨
      k ∈ keysOf ([] : List (Str × Schema)) ∨
      toLower k ∉ (keysOf [([98], Schema.type none false Ty.uint8)] ++
        keysOf ([] : List (Str × Schema))).map toLower) :=
  ⟨rfl, claim_C4_no_case_collision 2 [] ⟨[7, 1, 1, 65, 0]⟩ false
    [([98], .type none false .uint8)] [] false
    [([97], Value.null), ([98], Value.int 7)] ⟨[]⟩ rfl⟩

theorem requiredLoop_keySorted (F : Schema → Rng → Option (Value × Rng))
    (ps : List (Str × Schema)) :
    ∀ (ks : List Str) (rng : Rng) (ms ms' : List (Str × Value)) (r' : Rng),
      requiredLoop F ps ks rng ms = some (ms', r') → keySorted ms → keySorted ms' := by
  intro ks
  induction ks with
  | nil =>
    intro rng ms ms' r' h hs
    simp only [requiredLoop, Option.some.injEq, Prod.mk.injEq] at h
    rw [← h.1]
    exact hs
  | cons k₀ ks ih =>
    intro rng ms ms' r' h hs
    simp only [requiredLoop] at h
    split at h
    · simp at h
    · split at h
      · simp at h
      · rename_i v rng₁ hF
        exact ih rng₁ _ ms' r' h (keySorted_insertSorted _ _ _ hs)

theorem optionalLoop_keySorted (F : Schema → Rng → Option (Value × Rng))
    (ps : List (Str × Schema)) :
    ∀ (ks : List Str) (rng : Rng) (ms ms' : List (Str × Value)) (r' : Rng),
      optionalLoop F ps ks rng ms = some (ms', r') → keySorted ms → keySorted ms' := by
  intro ks
  induction ks with
  | nil =>
    intro rng ms ms' r' h hs
    simp only [optionalLoop, Option.some.injEq, Prod.mk.injEq] at h
    rw [← h.1]
    exact hs
  | cons k₀ ks ih =>
    intro rng ms ms' r' h hs
    simp only [optionalLoop] at h
    by_cases hc : (genBool rng).1 = true
    · rw [if_pos hc] at h
      exact ih (genBool rng).2 ms ms' r' h hs
    · rw [if_neg hc] at h
      split at h
      · simp at h
      · split at h
        · simp at h
        · rename_i v rng₁ hF
          exact ih rng₁ _ ms' r' h (keySorted_insertSorted _ _ _ hs)

theorem additionalLoop_keySorted (F : Rng → Option (Value × Rng)) (lowered : List Str) :
    ∀ (n : Nat) (rng : Rng) (ms ms' : List (Str × Value)) (r' : Rng),
      additionalLoop F lowered n rng ms = some (ms', r') → keySorted ms → keySorted ms' := by
  intro n
  induction n with
  | zero =>
    intro rng ms ms' r' h hs
    simp only [additionalLoop, Option.some.injEq, Prod.mk.injEq] at h
    rw [← h.1]
    exact hs
  | succ n ih =>
    intro rng ms ms' r' h hs
    simp only [additionalLoop] at h
    by_cases hin : toLower (fuzzString rng).1 ∈ lowered
    · rw [if_pos hin] at h
      exact ih (fuzzString rng).2 ms ms' r' h hs
    · rw [if_neg hin] at h
      split at h
      · simp at h
      · rename_i v rng₁ hF
        exact ih rng₁ _ ms' r' h (keySorted_insertSorted _ _ _ hs)

/-- Claim C5 counterexample: with the single required member name [98]
("b"), additional properties allowed, and draws producing the single
additional key [97] ("a"), the output object's member list is
[([97], null), ([98], 5)] — the additional key comes first, not appended
after the fixed members (which would be the member list
[([98], _), ([97], _)]). -/
theorem claim_C5_counterexample :
    fuzzWithRoot 3 [] ⟨[5, 1, 1, 65, 0]⟩
      (.properties false [([98], .type none false .uint8)] [] true) false
      = some (.obj [([97], Value.null), ([98], Value.int 5)], ⟨[]⟩) ∧
    keysOf [([98], Schema.type none false Ty.uint8)] = [[98]] ∧
    ([97] : Str) ∉ keysOf [([98], Schema.type none false Ty.uint8)] ∧
    List.map Prod.fst [([97], Value.null), ([98], Value.int 5)] ≠ [[98], [97]] :=
  ⟨rfl, rfl, by decide, by decide⟩

/-- Claim C5 (amended): required member names and then optional member
names are processed in lexicographically sorted order (the key lists are
sorted before the loops run, independent of representation order) and the
additional properties are drawn afterwards, in draw order; but in the
output object all members — fixed and additional alike — appear in
lexicographically sorted key order, not with the additional members
appended after the fixed ones. -/
theorem claim_C5_amended_sorted_output (fuel : Nat) (defs : Defs) (rng : Rng)
    (nullable : Bool) (props optProps : List (Str × Schema)) (additional : Bool)
    (isRoot : Bool) (ms : List (Str × Value)) (r' : Rng)
    (h : fuzzWithRoot (fuel + 1) defs rng
        (.properties nullable props optProps additional) isRoot = some (.obj ms, r')) :
    keySorted ms ∧
    (∃ ms₁ rng₁ ms₂ rng₂,
      requiredLoop (fun sub r => fuzzWithRoot fuel defs r sub false) props
        (sortStrs (keysOf props)) (nullFlip nullable rng).2 [] = some (ms₁, rng₁) ∧
      optionalLoop (fun sub r => fuzzWithRoot fuel defs r sub false) optProps
        (sortStrs (keysOf optProps)) rng₁ ms₁ = some (ms₂, rng₂) ∧
      ((additional = false ∧ ms = ms₂ ∧ r' = rng₂) ∨
       (additional = true ∧
        additionalLoop (fun r => fuzzWithRoot fuel [] r .empty true)
          ((keysOf props ++ keysOf optProps).map toLower)
          (genRangeIncl 0 MAX_SEQ_LENGTH rng₂).1 (genRangeIncl 0 MAX_SEQ_LENGTH rng₂).2 ms₂
          = some (ms, r')))) := by
  obtain ⟨ms₁, rng₁, ms₂, rng₂, hreq, hopt, hrest⟩ :=
    properties_inversion fuel defs rng nullable props optProps additional isRoot ms r' h
  have hs0 : keySorted ([] : List (Str × Value)) := by simp [keySorted]
  have hs1 := requiredLoop_keySorted _ _ _ _ _ _ _ hreq hs0
  have hs2 := optionalLoop_keySorted _ _ _ _ _ _ _ hopt hs1
  refine ⟨?_, ms₁, rng₁, ms₂, rng₂, hreq, hopt, hrest⟩
  rcases hrest with ⟨_, hms, _⟩ | ⟨_, hadd⟩
  · rw [hms]; exact hs2
  · exact additionalLoop_keySorted _ _ _ _ _ _ _ hadd hs2

/-- Claim C5 witness (for the amended statement): the counterexample run's
output object is key-sorted and decomposes into the three passes. -/
theorem claim_C5_witness :
    fuzzWithRoot 3 [] ⟨[5, 1, 1, 65, 0]⟩
      (.properties false [([98], .type none false .uint8)] [] true) false
      = some (.obj [([97], Value.null), ([98], Value.int 5)], ⟨[]⟩) ∧
    (keySorted [([97], Value.null), ([98], Value.int 5)] ∧
     (∃ ms₁ rng₁ ms₂ rng₂,
       requiredLoop (fun sub r => fuzzWithRoot 2 [] r sub false)
         [([98], Schema.type none false Ty.uint8)]
         (sortStrs (keysOf [([98], Schema.type none false Ty.uint8)]))
         (nullFlip false ⟨[5, 1, 1, 65, 0]⟩).2 [] = some (ms₁, rng₁) ∧
       optionalLoop (fun sub r => fuzzWithRoot 2 [] r sub false) []
         (sortStrs (keysOf ([] : List (Str × Schema)))) rng₁ ms₁ = some (ms₂, rng₂) ∧
       ((true = false ∧ [([97], Value.null), ([98], Value.int 5)] = ms₂ ∧
          Rng.mk [] = rng₂) ∨
        (true = true ∧
         additionalLoop (fun r => fuzzWithRoot 2 [] r .empty true)
           ((keysOf [([98], Schema.type none false Ty.uint8)] ++
             keysOf ([] : List (Str × Schema))).map toLower)
           (genRangeIncl 0 MAX_SEQ_LENGTH rng₂).1
           (genRangeIncl 0 MAX_SEQ_LENGTH rng₂).2 ms₂
           = some ([([97], Value.null), ([98], Value.int 5)], ⟨[]⟩))))) :=
  ⟨rfl, claim_C5_amended_sorted_output 2 [] ⟨[5, 1, 1, 65, 0]⟩ false
    [([98], .type none false .uint8)] [] true false
    [([97], Value.null), ([98], Value.int 5)] ⟨[]⟩ rfl⟩

end JtdFuzz
